import Mathlib

/-!
Shallow embedding of the bitwise rule-evaluation engine of
`src/if-test/src/main.rs`: the predicate row encoder `to_bits`, the
element-wise evaluator `eval_rules_naive`, the mask evaluator
`eval_rules_mask`, and the random rule generator `gen_rule` with its
index samplers.

Machine integers (`u64`) are modelled as `Nat`: every shift in the
program is by a predicate index below `N_PRED = 32 ≤ 64` and every mask
stays below `2 ^ 64`, so no wrap-around can occur.  The Rust array
access `row[i as usize]`, which panics when out of bounds, is modelled
with `Option` (`none` = panic); the mask evaluator contains no fallible
operation and is a plain function.

A central point of the embedding is the control flow of
`eval_rules_naive`.  In the source, the required-index loop reads

    for &i in &t.req_idx {
        if !row[i as usize] { continue /* to next term */; }
    }

and the unlabelled `continue` targets the innermost loop — the index
loop itself — not the term loop the comment announces.  The loop body
therefore only performs the (possibly panicking) reads and has no other
effect; the embedding `readAll` reproduces exactly that.
-/

namespace Bitwise

/-- `N_PRED` from the source: number of base predicates. -/
def N_PRED : Nat := 32

/-- `N_RULES` from the source: number of rules generated by `gen_rules`. -/
def N_RULES : Nat := 64

/-- `TERMS_PER_RULE = 2..=4` (inclusive range, as a pair of bounds). -/
def TERMS_PER_RULE : Nat × Nat := (2, 4)

/-- `REQ_PER_TERM = 3..=6` (inclusive range, as a pair of bounds). -/
def REQ_PER_TERM : Nat × Nat := (3, 6)

/-- `FORB_PER_TERM = 0..=2` (inclusive range, as a pair of bounds). -/
def FORB_PER_TERM : Nat × Nat := (0, 2)

/-- `struct Term`: precomputed masks plus explicit index lists
(the index values are `u8` in the source, modelled as `Nat`). -/
structure Term where
  req_mask : Nat
  forb_mask : Nat
  req_idx : List Nat
  forb_idx : List Nat
  deriving DecidableEq

/-- `struct Rule`: an OR of terms. -/
structure Rule where
  terms : List Term
  deriving DecidableEq

/-! ## The encoder `to_bits` -/

/-- `to_bits(row)`: the loop `for i in 0..N_PRED { if row[i] { s |= 1 << i } }`.
A row `[bool; N_PRED]` is modelled as a `List Bool` (of length `N_PRED`
wherever a claim quantifies over rows); the always-in-bounds read
`row[i]` for `i < N_PRED` is `row.getD i false`. -/
def to_bits (row : List Bool) : Nat :=
  (List.range N_PRED).foldl (fun s i => if row.getD i false then s ||| (1 <<< i) else s) 0

/-- The mask-building loop of `gen_rule`:
`for &i in &idx { mask |= 1u64 << i }`. -/
def orBits (idxs : List Nat) : Nat :=
  idxs.foldl (fun m i => m ||| (1 <<< i)) 0

/-! ## The element-wise (naive) evaluator -/

/-- The required-index loop of `eval_rules_naive`: each `row[i]` is read
(panic when out of bounds), the value is discarded because the source's
`continue` only advances this same loop. -/
def readAll (row : List Bool) : List Nat → Option Unit
  | [] => some ()
  | i :: rest => (row[i]?).bind fun _ => readAll row rest

/-- The forbidden-index loop of `eval_rules_naive`: scans `forb_idx`,
stopping (`break`) at the first index whose row entry is true. -/
def anyForb (row : List Bool) : List Nat → Option Bool
  | [] => some false
  | i :: rest => (row[i]?).bind fun v => if v then some true else anyForb row rest

/-- The per-term body of `eval_rules_naive`: run the required-index
reads, then the forbidden scan; the term counts as matched iff no
forbidden index was true. -/
def termNaive (row : List Bool) (t : Term) : Option Bool :=
  (readAll row t.req_idx).bind fun _ =>
    (anyForb row t.forb_idx).bind fun af => some (!af)

/-- The term loop of one rule: `continue 'rule` at the first matching
term, fall through to `return false` when no term matches. -/
def ruleNaive (row : List Bool) : List Term → Option Bool
  | [] => some false
  | t :: rest => (termNaive row t).bind fun m =>
      if m then some true else ruleNaive row rest

/-- `eval_rules_naive(rules, row)`: every rule must be satisfied;
evaluation returns `false` at the first rule with no matching term
(the later rules are then not evaluated at all). -/
def eval_rules_naive (rules : List Rule) (row : List Bool) : Option Bool :=
  match rules with
  | [] => some true
  | r :: rest => (ruleNaive row r.terms).bind fun m =>
      if m then eval_rules_naive rest row else some false

/-! ## The mask evaluator -/

/-- The per-term test of `eval_rules_mask`:
`(state & t.req_mask) == t.req_mask && (state & t.forb_mask) == 0`. -/
def termMask (state : Nat) (t : Term) : Bool :=
  (state &&& t.req_mask == t.req_mask) && (state &&& t.forb_mask == 0)

/-- The term loop of one rule in `eval_rules_mask`. -/
def ruleMask (state : Nat) : List Term → Bool
  | [] => false
  | t :: rest => if termMask state t then true else ruleMask state rest

/-- `eval_rules_mask(rules, state)`. -/
def eval_rules_mask (rules : List Rule) (state : Nat) : Bool :=
  match rules with
  | [] => true
  | r :: rest => if ruleMask state r.terms then eval_rules_mask rest state else false

/-! ## Bit-level lemmas -/

/-- Bits of the conditional or-accumulating fold used by `to_bits`. -/
theorem testBit_foldl_cond (p : Nat → Bool) (l : List Nat) (s : Nat) (j : Nat) :
    ((l.foldl (fun s i => if p i then s ||| (1 <<< i) else s) s).testBit j = true) ↔
      (s.testBit j = true ∨ (j ∈ l ∧ p j = true)) := by
  induction l generalizing s with
  | nil => simp
  | cons i rest ih =>
    rw [List.foldl_cons, ih]
    cases hp : p i with
    | false =>
      simp only [Bool.false_eq_true, if_false, List.mem_cons]
      constructor
      · rintro (hs | ⟨hm, hpj⟩)
        · exact Or.inl hs
        · exact Or.inr ⟨Or.inr hm, hpj⟩
      · rintro (hs | ⟨(rfl | hm), hpj⟩)
        · exact Or.inl hs
        · rw [hp] at hpj; cases hpj
        · exact Or.inr ⟨hm, hpj⟩
    | true =>
      simp only [if_true, Nat.testBit_or, Nat.one_shiftLeft, Nat.testBit_two_pow,
        Bool.or_eq_true, decide_eq_true_eq, List.mem_cons]
      constructor
      · rintro ((hs | rfl) | ⟨hm, hpj⟩)
        · exact Or.inl hs
        · exact Or.inr ⟨Or.inl rfl, hp⟩
        · exact Or.inr ⟨Or.inr hm, hpj⟩
      · rintro (hs | ⟨(rfl | hm), hpj⟩)
        · exact Or.inl (Or.inl hs)
        · exact Or.inl (Or.inr rfl)
        · exact Or.inr ⟨hm, hpj⟩

/-- Bits of the unconditional or-accumulating fold used by `orBits`. -/
theorem testBit_foldl_or (l : List Nat) (s j : Nat) :
    ((l.foldl (fun m i => m ||| (1 <<< i)) s).testBit j = true) ↔
      (s.testBit j = true ∨ j ∈ l) := by
  induction l generalizing s with
  | nil => simp
  | cons i rest ih =>
    rw [List.foldl_cons, ih]
    simp only [Nat.testBit_or, Nat.one_shiftLeft, Nat.testBit_two_pow,
      Bool.or_eq_true, decide_eq_true_eq, List.mem_cons]
    constructor
    · rintro ((hs | rfl) | hm)
      · exact Or.inl hs
      · exact Or.inr (Or.inl rfl)
      · exact Or.inr (Or.inr hm)
    · rintro (hs | (rfl | hm))
      · exact Or.inl (Or.inl hs)
      · exact Or.inl (Or.inr rfl)
      · exact Or.inr hm

/-- Bit `j` of `to_bits row` is set iff `j` is a predicate index with a
true row entry. -/
theorem to_bits_testBit (row : List Bool) (j : Nat) :
    ((to_bits row).testBit j = true) ↔ (j < N_PRED ∧ row.getD j false = true) := by
  unfold to_bits
  rw [testBit_foldl_cond (fun i => row.getD i false)]
  simp [List.mem_range]

/-- Bit `j` of `orBits l` is set iff `j ∈ l`. -/
theorem orBits_testBit (l : List Nat) (j : Nat) :
    ((orBits l).testBit j = true) ↔ j ∈ l := by
  unfold orBits
  rw [testBit_foldl_or]
  simp

/-- `state &&& m = m` says every bit of `m` is present in `state`. -/
theorem and_eq_self_iff_testBit (state m : Nat) :
    state &&& m = m ↔ ∀ j, m.testBit j = true → state.testBit j = true := by
  constructor
  · intro h j hj
    have hbit := congrArg (fun n => Nat.testBit n j) h
    simp only [Nat.testBit_and] at hbit
    rw [hj, Bool.and_true] at hbit
    exact hbit
  · intro h
    apply Nat.eq_of_testBit_eq
    intro j
    rw [Nat.testBit_and]
    cases hm : m.testBit j with
    | false => rw [Bool.and_false]
    | true => rw [h j hm, Bool.true_and]

/-- `state &&& m = 0` says no bit of `m` is present in `state`. -/
theorem and_eq_zero_iff_testBit (state m : Nat) :
    state &&& m = 0 ↔ ∀ j, m.testBit j = true → state.testBit j = false := by
  constructor
  · intro h j hj
    have hbit := congrArg (fun n => Nat.testBit n j) h
    simp only [Nat.testBit_and, Nat.zero_testBit] at hbit
    rw [hj, Bool.and_true] at hbit
    exact hbit
  · intro h
    apply Nat.eq_of_testBit_eq
    intro j
    rw [Nat.testBit_and, Nat.zero_testBit]
    cases hm : m.testBit j with
    | false => rw [Bool.and_false]
    | true => rw [h j hm, Bool.false_and]

/-! ## Characterizations of the two evaluators -/

/-- What a term amounts to under `eval_rules_naive` as written: only the
forbidden scan decides; the required-index loop has no effect. -/
def naiveTermPure (row : List Bool) (t : Term) : Bool :=
  !(t.forb_idx.any fun i => row.getD i false)

theorem readAll_eq_some (row : List Bool) (l : List Nat)
    (h : ∀ i ∈ l, i < row.length) : readAll row l = some () := by
  induction l with
  | nil => rfl
  | cons i rest ih =>
    have hi : i < row.length := h i (List.mem_cons_self i rest)
    rw [readAll, List.getElem?_eq_getElem hi, Option.some_bind]
    exact ih fun j hj => h j (List.mem_cons_of_mem i hj)

theorem anyForb_eq_some (row : List Bool) (l : List Nat)
    (h : ∀ i ∈ l, i < row.length) :
    anyForb row l = some (l.any fun i => row.getD i false) := by
  induction l with
  | nil => rfl
  | cons i rest ih =>
    have hi : i < row.length := h i (List.mem_cons_self i rest)
    have hgd : row.getD i false = row[i] := by
      simp [List.getD_eq_getElem?_getD, List.getElem?_eq_getElem hi]
    rw [anyForb, List.getElem?_eq_getElem hi, Option.some_bind, List.any_cons, hgd]
    cases hv : row[i] with
    | false =>
      simp only [Bool.false_eq_true, if_false, Bool.false_or]
      exact ih fun j hj => h j (List.mem_cons_of_mem i hj)
    | true => simp

theorem termNaive_eq_some (row : List Bool) (t : Term)
    (hq : ∀ i ∈ t.req_idx, i < row.length)
    (hf : ∀ i ∈ t.forb_idx, i < row.length) :
    termNaive row t = some (naiveTermPure row t) := by
  rw [termNaive, readAll_eq_some row _ hq, Option.some_bind,
    anyForb_eq_some row _ hf, Option.some_bind]
  rfl

theorem ruleNaive_eq_some (row : List Bool) (terms : List Term)
    (h : ∀ t ∈ terms, (∀ i ∈ t.req_idx, i < row.length) ∧
      ∀ i ∈ t.forb_idx, i < row.length) :
    ruleNaive row terms = some (terms.any (naiveTermPure row)) := by
  induction terms with
  | nil => rfl
  | cons t rest ih =>
    obtain ⟨hq, hf⟩ := h t (List.mem_cons_self t rest)
    rw [ruleNaive, termNaive_eq_some row t hq hf, Option.some_bind, List.any_cons]
    cases hv : naiveTermPure row t with
    | false =>
      simp only [Bool.false_eq_true, if_false, Bool.false_or]
      exact ih fun u hu => h u (List.mem_cons_of_mem t hu)
    | true => simp

/-- `eval_rules_naive` computed in closed form: under in-bounds indices
it returns `some` of a conjunction over rules of disjunctions over
terms of `naiveTermPure`. -/
theorem eval_rules_naive_eq_some (rules : List Rule) (row : List Bool)
    (h : ∀ r ∈ rules, ∀ t ∈ r.terms, (∀ i ∈ t.req_idx, i < row.length) ∧
      ∀ i ∈ t.forb_idx, i < row.length) :
    eval_rules_naive rules row =
      some (rules.all fun r => r.terms.any (naiveTermPure row)) := by
  induction rules with
  | nil => rfl
  | cons r rest ih =>
    rw [eval_rules_naive, ruleNaive_eq_some row r.terms (h r (List.mem_cons_self r rest)),
      Option.some_bind, List.all_cons]
    cases hv : r.terms.any (naiveTermPure row) with
    | false => simp
    | true =>
      simp only [if_true, Bool.true_and]
      exact ih fun u hu => h u (List.mem_cons_of_mem r hu)

theorem ruleMask_eq_any (state : Nat) (terms : List Term) :
    ruleMask state terms = terms.any (termMask state) := by
  induction terms with
  | nil => rfl
  | cons t rest ih =>
    rw [ruleMask, List.any_cons, ih]
    cases termMask state t <;> simp

/-- `eval_rules_mask` computed in closed form. -/
theorem eval_rules_mask_eq_all (rules : List Rule) (state : Nat) :
    eval_rules_mask rules state = rules.all fun r => r.terms.any (termMask state) := by
  induction rules with
  | nil => rfl
  | cons r rest ih =>
    rw [eval_rules_mask, ruleMask_eq_any, List.all_cons, ih]
    cases (r.terms.any (termMask state)) <;> simp

/-- The mask test of one term, over an encoded row, in terms of its
index lists (the masks being the ones its index lists induce). -/
theorem termMask_to_bits_iff (row : List Bool) (t : Term)
    (hqm : t.req_mask = orBits t.req_idx) (hfm : t.forb_mask = orBits t.forb_idx)
    (hq : ∀ i ∈ t.req_idx, i < N_PRED) (hf : ∀ i ∈ t.forb_idx, i < N_PRED) :
    termMask (to_bits row) t = true ↔
      ((∀ i ∈ t.req_idx, row.getD i false = true) ∧
        ∀ i ∈ t.forb_idx, row.getD i false = false) := by
  rw [termMask, Bool.and_eq_true, beq_iff_eq, beq_iff_eq, hqm, hfm,
    and_eq_self_iff_testBit, and_eq_zero_iff_testBit]
  constructor
  · rintro ⟨h1, h2⟩
    constructor
    · intro i hi
      have hb := h1 i ((orBits_testBit _ i).mpr hi)
      exact ((to_bits_testBit row i).mp hb).2
    · intro i hi
      have hb := h2 i ((orBits_testBit _ i).mpr hi)
      cases hrow : row.getD i false with
      | false => rfl
      | true =>
        rw [(to_bits_testBit row i).mpr ⟨hf i hi, hrow⟩] at hb
        cases hb
  · rintro ⟨h1, h2⟩
    constructor
    · intro j hj
      have hm := (orBits_testBit _ j).mp hj
      exact (to_bits_testBit row j).mpr ⟨hq j hm, h1 j hm⟩
    · intro j hj
      have hm := (orBits_testBit _ j).mp hj
      cases hb : (to_bits row).testBit j with
      | false => rfl
      | true =>
        have := (to_bits_testBit row j).mp hb
        rw [h2 j hm] at this
        cases this.2

/-! ## Concrete inputs used to exhibit the naive evaluator's behaviour -/

/-- A rule set with one rule holding one term requiring predicate 0
(masks consistent with the index lists). -/
def rulesReq0 : List Rule := [⟨[⟨1, 0, [0], []⟩]⟩]

/-- The all-false row of length `N_PRED`. -/
def rowAllFalse : List Bool := List.replicate 32 false

/-- One rule, one term requiring predicate 1. -/
def rulesReq1 : List Rule := [⟨[⟨2, 0, [1], []⟩]⟩]

/-- One rule, one term with required = {0, 1}, forbidden = {}. -/
def rulesReq01 : List Rule := [⟨[⟨3, 0, [0, 1], []⟩]⟩]

/-- The row with entries 0 and 1 true, all others false. -/
def rowTT : List Bool := true :: true :: List.replicate 30 false

/-- The row with entry 0 true, entry 1 false, all others false. -/
def rowTF : List Bool := true :: false :: List.replicate 30 false

/-- One rule, one degenerate term whose required and forbidden sets both
equal {0} (masks consistent with the index lists, overlapping). -/
def rulesDegenerate : List Rule := [⟨[⟨1, 1, [0], [0]⟩]⟩]

/-! ## Claims -/

/-- **C1** (code_bug evidence).  The claimed equivalence
`eval_rules_naive rules row = eval_rules_mask rules (to_bits row)` fails
on a well-formed rule set (consistent index lists and masks, indices
below `N_PRED`) and a row of length `N_PRED`: with one term requiring
predicate 0 and the all-false row, the naive evaluator returns `true`
(its required-index loop's unlabelled `continue` is a no-op) while the
mask evaluator returns `false`. -/
theorem naive_mask_disagree :
    rowAllFalse.length = N_PRED ∧
    (∀ r ∈ rulesReq0, ∀ t ∈ r.terms,
      t.req_mask = orBits t.req_idx ∧ t.forb_mask = orBits t.forb_idx ∧
      (∀ i ∈ t.req_idx, i < N_PRED) ∧ ∀ i ∈ t.forb_idx, i < N_PRED) ∧
    eval_rules_naive rulesReq0 rowAllFalse = some true ∧
    eval_rules_mask rulesReq0 (to_bits rowAllFalse) = false := by
  refine ⟨by decide, by decide, by decide, by decide⟩

/-- **C2** (code_bug evidence).  `eval_rules_naive` does not implement
the claimed term semantics: with one term requiring predicate 1 and the
all-false row, no term matches under the claimed semantics (so the
claimed result is `false`), yet the function returns `true`. -/
theorem naive_required_semantics_fails :
    eval_rules_naive rulesReq1 rowAllFalse = some true ∧
    ¬ (∀ r ∈ rulesReq1, ∃ t ∈ r.terms,
        (∀ i ∈ t.req_idx, rowAllFalse.getD i false = true) ∧
        ∀ i ∈ t.forb_idx, rowAllFalse.getD i false = false) := by
  refine ⟨by decide, by decide⟩

/-- **C3** (confirmed).  `eval_rules_mask` returns `true` iff every rule
contains a term `t` with `(state &&& t.req_mask) = t.req_mask` and
`(state &&& t.forb_mask) = 0`, for every rule set and every `u64`
state. -/
theorem eval_rules_mask_correct (rules : List Rule) (state : Nat)
    (hstate : state < 2 ^ 64) :
    eval_rules_mask rules state = true ↔
      ∀ r ∈ rules, ∃ t ∈ r.terms,
        state &&& t.req_mask = t.req_mask ∧ state &&& t.forb_mask = 0 := by
  rw [eval_rules_mask_eq_all, List.all_eq_true]
  constructor
  · intro h r hr
    obtain ⟨t, ht, htm⟩ := List.any_eq_true.mp (h r hr)
    rw [termMask, Bool.and_eq_true, beq_iff_eq, beq_iff_eq] at htm
    exact ⟨t, ht, htm⟩
  · intro h r hr
    obtain ⟨t, ht, h1, h2⟩ := h r hr
    refine List.any_eq_true.mpr ⟨t, ht, ?_⟩
    rw [termMask, Bool.and_eq_true, beq_iff_eq, beq_iff_eq]
    exact ⟨h1, h2⟩

/-- Witness for **C3** at a concrete rule set and state. -/
theorem eval_rules_mask_correct_witness :
    eval_rules_mask [⟨[⟨3, 4, [0, 1], [2]⟩]⟩] 3 = true :=
  (eval_rules_mask_correct [⟨[⟨3, 4, [0, 1], [2]⟩]⟩] 3 (by decide)).mpr (by decide)

/-- `rules` with every term's required index list emptied (masks and
forbidden lists unchanged). -/
def eraseReq (rules : List Rule) : List Rule :=
  rules.map fun r => ⟨r.terms.map fun t => { t with req_idx := [] }⟩

/-- **C4** (confirmed).  As written, `eval_rules_naive` never consults
the required-index lists: over in-range rule sets and rows of length
`N_PRED` it returns `true` iff every rule has a term none of whose
forbidden indices is true, and emptying every required index list
leaves its result unchanged. -/
theorem eval_rules_naive_ignores_req (rules : List Rule) (row : List Bool)
    (hrow : row.length = N_PRED)
    (h : ∀ r ∈ rules, ∀ t ∈ r.terms, (∀ i ∈ t.req_idx, i < N_PRED) ∧
      ∀ i ∈ t.forb_idx, i < N_PRED) :
    (eval_rules_naive rules row = some true ↔
      ∀ r ∈ rules, ∃ t ∈ r.terms, ∀ i ∈ t.forb_idx, row.getD i false = false) ∧
    eval_rules_naive (eraseReq rules) row = eval_rules_naive rules row := by
  have hb : ∀ r ∈ rules, ∀ t ∈ r.terms, (∀ i ∈ t.req_idx, i < row.length) ∧
      ∀ i ∈ t.forb_idx, i < row.length := by
    intro r hr t ht
    obtain ⟨h1, h2⟩ := h r hr t ht
    exact ⟨fun i hi => hrow ▸ h1 i hi, fun i hi => hrow ▸ h2 i hi⟩
  have hb2 : ∀ r ∈ eraseReq rules, ∀ t ∈ r.terms, (∀ i ∈ t.req_idx, i < row.length) ∧
      ∀ i ∈ t.forb_idx, i < row.length := by
    intro r hr t ht
    obtain ⟨r₀, hr₀, rfl⟩ := List.mem_map.mp hr
    obtain ⟨t₀, ht₀, rfl⟩ := List.mem_map.mp ht
    refine ⟨by simp, fun i hi => ((hb r₀ hr₀ t₀ ht₀).2 i hi)⟩
  constructor
  · rw [eval_rules_naive_eq_some rules row hb]
    simp only [Option.some.injEq, List.all_eq_true]
    constructor
    · intro ha r hr
      obtain ⟨t, ht, hp⟩ := List.any_eq_true.mp (ha r hr)
      refine ⟨t, ht, fun i hi => ?_⟩
      rw [naiveTermPure, Bool.not_eq_true'] at hp
      have := List.any_eq_false.mp hp i hi
      cases hgd : row.getD i false with
      | false => rfl
      | true => exact absurd hgd this
    · intro ha r hr
      obtain ⟨t, ht, hp⟩ := ha r hr
      refine List.any_eq_true.mpr ⟨t, ht, ?_⟩
      rw [naiveTermPure, Bool.not_eq_true']
      refine List.any_eq_false.mpr fun i hi hgd => ?_
      rw [hp i hi] at hgd
      cases hgd
  · rw [eval_rules_naive_eq_some rules row hb,
      eval_rules_naive_eq_some (eraseReq rules) row hb2, eraseReq, List.all_map]
    refine congrArg (fun f => some (List.all rules f)) (funext fun r => ?_)
    show (r.terms.map fun t => { t with req_idx := [] }).any (naiveTermPure row) =
      r.terms.any (naiveTermPure row)
    rw [List.any_map]
    rfl

/-- Witness for **C4**: the concrete rule set requiring predicate 0
evaluates to `true` on the all-false row, because its only term has no
forbidden indices. -/
theorem eval_rules_naive_ignores_req_witness :
    eval_rules_naive rulesReq0 rowAllFalse = some true :=
  (eval_rules_naive_ignores_req rulesReq0 rowAllFalse (by decide) (by decide)).1.mpr
    (by decide)

/-- **C5** (confirmed).  For every row of length `N_PRED`, bit `i` of
`to_bits row` equals `row[i]` for `i < N_PRED`, and every bit at
position `N_PRED` or above is zero. -/
theorem to_bits_spec (row : List Bool) (hrow : row.length = N_PRED) :
    (∀ i, i < N_PRED → (to_bits row).testBit i = row.getD i false) ∧
      ∀ i, N_PRED ≤ i → (to_bits row).testBit i = false := by
  constructor
  · intro i hi
    cases hgd : row.getD i false with
    | false =>
      cases hb : (to_bits row).testBit i with
      | false => rfl
      | true =>
        have := ((to_bits_testBit row i).mp hb).2
        rw [hgd] at this
        cases this
    | true => exact (to_bits_testBit row i).mpr ⟨hi, hgd⟩
  · intro i hi
    cases hb : (to_bits row).testBit i with
    | false => rfl
    | true =>
      have := ((to_bits_testBit row i).mp hb).1
      exact absurd this (Nat.not_lt.mpr hi)

/-- Witness for **C5** at a concrete row and two concrete bit
positions. -/
theorem to_bits_spec_witness :
    (to_bits (true :: List.replicate 31 false)).testBit 0 = true ∧
      (to_bits (true :: List.replicate 31 false)).testBit 40 = false :=
  ⟨((to_bits_spec (true :: List.replicate 31 false) (by decide)).1 0 (by decide)).trans
      (by decide),
    (to_bits_spec (true :: List.replicate 31 false) (by decide)).2 40 (by decide)⟩

/-- **C6** (code_bug evidence).  The concrete scenario: with the single
rule requiring {0, 1} and no forbidden indices, the row `[T, T, F, …]`
encodes to binary `0011` and both evaluators return `true`; on the row
with entry 1 flipped to false the mask evaluator returns `false` as the
claim states, but the naive evaluator still returns `true`. -/
theorem concrete_scenario_divergence :
    to_bits rowTT = 3 ∧
    eval_rules_naive rulesReq01 rowTT = some true ∧
    eval_rules_mask rulesReq01 (to_bits rowTT) = true ∧
    eval_rules_mask rulesReq01 (to_bits rowTF) = false ∧
    eval_rules_naive rulesReq01 rowTF = some true := by
  refine ⟨by decide, by decide, by decide, by decide, by decide⟩

/-- A term whose masks overlap never passes the mask test, for any
state: its required bits would have to be present and absent at once. -/
theorem termMask_overlap_false (state : Nat) (t : Term)
    (h : t.req_mask &&& t.forb_mask ≠ 0) : termMask state t = false := by
  cases hb : termMask state t with
  | false => rfl
  | true =>
    rw [termMask, Bool.and_eq_true, beq_iff_eq, beq_iff_eq] at hb
    obtain ⟨h1, h2⟩ := hb
    apply absurd _ h
    apply Nat.eq_of_testBit_eq
    intro j
    rw [Nat.testBit_and, Nat.zero_testBit]
    cases hq : t.req_mask.testBit j with
    | false => rw [Bool.false_and]
    | true =>
      rw [Bool.true_and]
      have hs := (and_eq_self_iff_testBit state t.req_mask).mp h1 j hq
      cases hf : t.forb_mask.testBit j with
      | false => rfl
      | true =>
        have := (and_eq_zero_iff_testBit state t.forb_mask).mp h2 j hf
        rw [hs] at this
        cases this

/-- **C7** (code_bug evidence).  On a degenerate term (required and
forbidden sets both {0}, masks overlapping and consistent with the
lists) the mask evaluator indeed never matches — the rule set built
from that single term evaluates to `false` — but the naive evaluator
treats the term as matching on the all-false row and returns `true`,
contradicting the claim that the term matches under neither
evaluator. -/
theorem degenerate_term_divergence :
    (∀ r ∈ rulesDegenerate, ∀ t ∈ r.terms,
      t.req_mask &&& t.forb_mask ≠ 0 ∧
      t.req_mask = orBits t.req_idx ∧ t.forb_mask = orBits t.forb_idx) ∧
    eval_rules_mask rulesDegenerate (to_bits rowAllFalse) = false ∧
    eval_rules_naive rulesDegenerate rowAllFalse = some true := by
  refine ⟨by decide, by decide, by decide⟩

/-- **C8** (confirmed).  Over a rule set whose indices are all below
`N_PRED` and a row of length `N_PRED`, both evaluators produce a
boolean with no failure: every `row[i]` access of the naive evaluator
is in bounds (`isSome`), and the mask evaluator is a total boolean
function. -/
theorem evaluators_total (rules : List Rule) (row : List Bool)
    (hrow : row.length = N_PRED)
    (h : ∀ r ∈ rules, ∀ t ∈ r.terms, (∀ i ∈ t.req_idx, i < N_PRED) ∧
      ∀ i ∈ t.forb_idx, i < N_PRED) :
    (eval_rules_naive rules row).isSome = true ∧
      (eval_rules_mask rules (to_bits row) = true ∨
        eval_rules_mask rules (to_bits row) = false) := by
  constructor
  · have hb : ∀ r ∈ rules, ∀ t ∈ r.terms, (∀ i ∈ t.req_idx, i < row.length) ∧
        ∀ i ∈ t.forb_idx, i < row.length := by
      intro r hr t ht
      obtain ⟨h1, h2⟩ := h r hr t ht
      exact ⟨fun i hi => hrow ▸ h1 i hi, fun i hi => hrow ▸ h2 i hi⟩
    rw [eval_rules_naive_eq_some rules row hb]
    rfl
  · cases eval_rules_mask rules (to_bits row) with
    | true => exact Or.inl rfl
    | false => exact Or.inr rfl

/-- Witness for **C8** at a concrete rule set and row. -/
theorem evaluators_total_witness :
    (eval_rules_naive rulesReq01 (List.replicate 32 true)).isSome = true :=
  (evaluators_total rulesReq01 (List.replicate 32 true) (by decide) (by decide)).1

/-! ## Term-order invariance -/

theorem perm_any_eq {α : Type} (p : α → Bool) {l₁ l₂ : List α} (h : l₁.Perm l₂) :
    l₁.any p = l₂.any p := by
  simp only [List.any_eq]
  refine decide_eq_decide.mpr ?_
  constructor
  · rintro ⟨x, hx, hpx⟩
    exact ⟨x, h.mem_iff.mp hx, hpx⟩
  · rintro ⟨x, hx, hpx⟩
    exact ⟨x, h.mem_iff.mpr hx, hpx⟩

/-- Rule sets whose rules pairwise hold permuted term lists give equal
conjunction-of-disjunction values. -/
theorem forall₂_perm_all_eq (f : Term → Bool) {rules₁ rules₂ : List Rule}
    (h : List.Forall₂ (fun r₁ r₂ => r₁.terms.Perm r₂.terms) rules₁ rules₂) :
    (rules₁.all fun r => r.terms.any f) = rules₂.all fun r => r.terms.any f := by
  induction h with
  | nil => rfl
  | cons hp _ ih => rw [List.all_cons, List.all_cons, ih, perm_any_eq f hp]

/-- In-bounds hypotheses transfer across per-rule term permutations. -/
theorem forall₂_perm_bounds (P : Term → Prop) {rules₁ rules₂ : List Rule}
    (hperm : List.Forall₂ (fun r₁ r₂ => r₁.terms.Perm r₂.terms) rules₁ rules₂)
    (h : ∀ r ∈ rules₁, ∀ t ∈ r.terms, P t) :
    ∀ r ∈ rules₂, ∀ t ∈ r.terms, P t := by
  induction hperm with
  | nil => intro r hr; cases hr
  | cons hp _ ih =>
    intro r hr t ht
    rcases List.mem_cons.mp hr with rfl | hr₂
    · exact h _ (List.mem_cons_self _ _) t (hp.mem_iff.mpr ht)
    · exact ih (fun u hu => h u (List.mem_cons_of_mem _ hu)) r hr₂ t ht

/-- **C9** (confirmed).  Permuting the terms inside any rules of a
well-formed rule set changes the result of neither evaluator: both are
decided by which terms exist in each rule, not by their order. -/
theorem term_order_invariance (rules₁ rules₂ : List Rule) (row : List Bool)
    (state : Nat)
    (hperm : List.Forall₂ (fun r₁ r₂ => r₁.terms.Perm r₂.terms) rules₁ rules₂)
    (hrow : row.length = N_PRED) (hstate : state < 2 ^ 64)
    (h : ∀ r ∈ rules₁, ∀ t ∈ r.terms, (∀ i ∈ t.req_idx, i < N_PRED) ∧
      ∀ i ∈ t.forb_idx, i < N_PRED) :
    eval_rules_naive rules₁ row = eval_rules_naive rules₂ row ∧
      eval_rules_mask rules₁ state = eval_rules_mask rules₂ state := by
  have hb₁ : ∀ r ∈ rules₁, ∀ t ∈ r.terms, (∀ i ∈ t.req_idx, i < row.length) ∧
      ∀ i ∈ t.forb_idx, i < row.length := by
    intro r hr t ht
    obtain ⟨h1, h2⟩ := h r hr t ht
    exact ⟨fun i hi => hrow ▸ h1 i hi, fun i hi => hrow ▸ h2 i hi⟩
  have hb₂ : ∀ r ∈ rules₂, ∀ t ∈ r.terms, (∀ i ∈ t.req_idx, i < row.length) ∧
      ∀ i ∈ t.forb_idx, i < row.length :=
    forall₂_perm_bounds _ hperm hb₁
  constructor
  · rw [eval_rules_naive_eq_some rules₁ row hb₁,
      eval_rules_naive_eq_some rules₂ row hb₂,
      forall₂_perm_all_eq (naiveTermPure row) hperm]
  · rw [eval_rules_mask_eq_all, eval_rules_mask_eq_all,
      forall₂_perm_all_eq (termMask state) hperm]

/-- Witness for **C9**: swapping the two terms of a one-rule set leaves
the naive result on the all-true row unchanged. -/
theorem term_order_invariance_witness :
    eval_rules_naive [⟨[⟨1, 0, [0], []⟩, ⟨2, 0, [1], []⟩]⟩] (List.replicate 32 true) =
      eval_rules_naive [⟨[⟨2, 0, [1], []⟩, ⟨1, 0, [0], []⟩]⟩] (List.replicate 32 true) :=
  (term_order_invariance
    [⟨[⟨1, 0, [0], []⟩, ⟨2, 0, [1], []⟩]⟩]
    [⟨[⟨2, 0, [1], []⟩, ⟨1, 0, [0], []⟩]⟩]
    (List.replicate 32 true) 0
    (List.Forall₂.cons (List.Perm.swap _ _ _) List.Forall₂.nil)
    (by decide) (by decide) (by decide)).1

/-! ## The random rule generator

The rand crate is external to the repository; it is modelled by its
contract.  `SmallRng` becomes an abstract stream of naturals with a
cursor, and `random_range` returns the next stream value reduced into
the requested range (which is all the generator invariants depend on).
`rand::seq::index::sample(rng, N_PRED, k)`, documented to return `k`
distinct indices from `[0, N_PRED)`, is realized by the same
Fisher-Yates pick loop the source itself uses in
`sample_distinct_excluding`, run on the full pool. -/

/-- Abstract model of `SmallRng`: a fixed stream of naturals and a
cursor that advances at each draw. -/
structure Rng where
  stream : Nat → Nat
  pos : Nat

/-- Draw one natural and advance the cursor. -/
def Rng.next (g : Rng) : Nat × Rng := (g.stream g.pos, ⟨g.stream, g.pos + 1⟩)

/-- `rng.random_range(lo..=hi)` on an inclusive range, modelled by its
contract of producing a value in `[lo, hi]`. -/
def Rng.randomRangeIncl (g : Rng) (r : Nat × Nat) : Nat × Rng :=
  let p := g.next
  (r.1 + p.1 % (r.2 - r.1 + 1), p.2)

/-- `rng.random_range(lo..hi)` on a half-open range; the source only
uses it as `0..pool.len()` after a nonempty check. -/
def Rng.randomRangeExcl (g : Rng) (lo hi : Nat) : Nat × Rng :=
  let p := g.next
  (lo + p.1 % (hi - lo), p.2)

/-- `Vec::swap_remove(i)`: return element `i` after moving the last
element into its place and shrinking the vector by one. -/
def swapRemove (l : List Nat) (i : Nat) : Nat × List Nat :=
  (l.getD i 0, (l.set i (l.getLast?.getD 0)).dropLast)

/-- `swap_remove` only reorders: the removed element together with the
shrunk pool is a permutation of the original pool. -/
theorem swapRemove_perm (l : List Nat) (i : Nat) (h : i < l.length) :
    ((swapRemove l i).1 :: (swapRemove l i).2).Perm l := by
  have hx : l.getD i 0 = l[i] := by
    simp [List.getD_eq_getElem?_getD, List.getElem?_eq_getElem h]
  have hl : l.take i ++ l[i] :: l.drop (i + 1) = l := by
    rw [← List.drop_eq_getElem_cons h, List.take_append_drop]
  rw [swapRemove, hx]
  cases hv : l.drop (i + 1) with
  | nil =>
    have hl2 : l = l.take i ++ [l[i]] := by
      conv_lhs => rw [← hl]
      rw [hv]
    have hlast : l.getLast? = some l[i] := by
      conv_lhs => rw [hl2]
      rw [List.getLast?_append]
      rfl
    have hset : l.set i (l.getLast?.getD 0) = l := by
      rw [hlast]
      show l.set i l[i] = l
      rw [List.set_eq_take_cons_drop _ h, hv]
      conv_rhs => rw [hl2]
    have hdrop : l.dropLast = l.take i := by
      conv_lhs => rw [hl2]
      rw [List.dropLast_concat]
    rw [hset, hdrop]
    conv_rhs => rw [hl2]
    exact (List.perm_append_singleton _ _).symm
  | cons b v' =>
    have hne : b :: v' ≠ [] := List.cons_ne_nil b v'
    have hA : l.getLast?.getD 0 = (b :: v').getLast hne := by
      conv_lhs => rw [← hl]
      rw [hv, List.getLast?_append, List.getLast?_cons_cons,
        List.getLast?_eq_getLast _ hne, Option.or_some]
      rfl
    have hset : (l.set i (l.getLast?.getD 0)).dropLast =
        l.take i ++ (b :: v').getLast hne :: (b :: v').dropLast := by
      rw [hA, List.set_eq_take_cons_drop _ h, hv, List.dropLast_append_cons,
        List.dropLast_cons₂]
    have hd : (b :: v').dropLast ++ [(b :: v').getLast hne] = b :: v' :=
      List.dropLast_concat_getLast hne
    have h1 : List.Perm ((b :: v').getLast hne :: (b :: v').dropLast) (b :: v') := by
      conv_rhs => rw [← hd]
      exact (List.perm_append_singleton _ _).symm
    have h2 : List.Perm (l.take i ++ l[i] :: ((b :: v').getLast hne :: (b :: v').dropLast))
        (l.take i ++ l[i] :: (b :: v')) :=
      List.Perm.append_left _ (List.Perm.cons _ h1)
    have h3 : List.Perm (l[i] :: (l.take i ++ (b :: v').getLast hne :: (b :: v').dropLast))
        (l.take i ++ l[i] :: ((b :: v').getLast hne :: (b :: v').dropLast)) :=
      List.perm_middle.symm
    have h5 : l.take i ++ l[i] :: (b :: v') = l := by
      rw [← hv]
      exact hl
    rw [hset]
    conv_rhs => rw [← h5]
    exact h3.trans h2

/-- The Fisher-Yates pick loop of `sample_distinct_excluding`: up to
`k` times, draw an index into the remaining pool, `swap_remove` the
chosen element and push it onto the output (stopping early only when
the pool runs dry). -/
def pickLoop : Nat → Rng → List Nat → List Nat → List Nat × Rng
  | 0, g, _, out => (out, g)
  | k + 1, g, pool, out =>
    if pool.isEmpty then (out, g)
    else
      pickLoop k (g.randomRangeExcl 0 pool.length).2
        (swapRemove pool (g.randomRangeExcl 0 pool.length).1).2
        (out ++ [(swapRemove pool (g.randomRangeExcl 0 pool.length).1).1])

/-- Invariant of the pick loop: starting from a duplicate-free pool of
elements satisfying `P` and a duplicate-free output disjoint from the
pool, the final output is duplicate-free and all its elements satisfy
`P`. -/
theorem pickLoop_spec (P : Nat → Prop) :
    ∀ (k : Nat) (g : Rng) (pool out : List Nat),
      pool.Nodup → out.Nodup → (∀ x ∈ out, x ∉ pool) →
      (∀ x ∈ pool, P x) → (∀ x ∈ out, P x) →
      (pickLoop k g pool out).1.Nodup ∧ ∀ x ∈ (pickLoop k g pool out).1, P x := by
  intro k
  induction k with
  | zero =>
    intro g pool out _ hout _ _ houtP
    exact ⟨hout, houtP⟩
  | succ k ih =>
    intro g pool out hpool hout hdisj hpoolP houtP
    rw [pickLoop]
    by_cases hemp : pool.isEmpty
    · rw [if_pos hemp]
      exact ⟨hout, houtP⟩
    · rw [if_neg hemp]
      have hlen : 0 < pool.length := by
        cases pool with
        | nil => cases hemp rfl
        | cons a rest => exact Nat.succ_pos _
      have hlt : (g.randomRangeExcl 0 pool.length).1 < pool.length := by
        rw [Rng.randomRangeExcl]
        simp only [Nat.zero_add, Nat.sub_zero]
        exact Nat.mod_lt _ hlen
      have hperm := swapRemove_perm pool (g.randomRangeExcl 0 pool.length).1 hlt
      obtain ⟨hxnot, hpool2⟩ := List.nodup_cons.mp (hperm.symm.nodup hpool)
      have hsub : ∀ y ∈ (swapRemove pool (g.randomRangeExcl 0 pool.length).1).2,
          y ∈ pool := fun y hy => hperm.subset (List.mem_cons_of_mem _ hy)
      have hxmem := hperm.subset (List.mem_cons_self _ _)
      have hxout : (swapRemove pool (g.randomRangeExcl 0 pool.length).1).1 ∉ out :=
        fun hin => hdisj _ hin hxmem
      refine ih _ _ _ hpool2 ?_ ?_ (fun y hy => hpoolP y (hsub y hy)) ?_
      · exact (List.perm_append_singleton _ _).symm.nodup
          (List.nodup_cons.mpr ⟨hxout, hout⟩)
      · intro y hy
        rcases List.mem_append.mp hy with hy1 | hy2
        · exact fun hy' => hdisj y hy1 (hsub y hy')
        · rw [List.mem_singleton] at hy2
          exact hy2 ▸ hxnot
      · intro y hy
        rcases List.mem_append.mp hy with hy1 | hy2
        · exact houtP y hy1
        · rw [List.mem_singleton] at hy2
          exact hy2 ▸ hpoolP _ hxmem

/-- `sample_distinct(rng, k)`: `k` distinct predicate indices.  The
external `rand::seq::index::sample(rng, N_PRED, k)` is modelled by its
contract — distinct indices drawn from `[0, N_PRED)` — realized here by
the pick loop over the full pool. -/
def sample_distinct (g : Rng) (k : Nat) : List Nat × Rng :=
  if k = 0 then ([], g)
  else pickLoop k g (List.range N_PRED) []

/-- `sample_distinct_excluding(rng, k, exclude)`: the pool is
`(0..N_PRED).retain(∉ exclude)` and up to `k` elements are drawn from
it by Fisher-Yates picks with `swap_remove`. -/
def sample_distinct_excluding (g : Rng) (k : Nat) (exclude : List Nat) :
    List Nat × Rng :=
  if k = 0 then ([], g)
  else pickLoop k g ((List.range N_PRED).filter fun i => !(exclude.contains i)) []

theorem sample_distinct_spec (g : Rng) (k : Nat) :
    (sample_distinct g k).1.Nodup ∧ ∀ x ∈ (sample_distinct g k).1, x < N_PRED := by
  rw [sample_distinct]
  by_cases hk : k = 0
  · rw [if_pos hk]
    exact ⟨List.nodup_nil, fun x hx => absurd hx (List.not_mem_nil x)⟩
  · rw [if_neg hk]
    exact pickLoop_spec (fun x => x < N_PRED) k g (List.range N_PRED) []
      (List.nodup_range N_PRED) List.nodup_nil
      (fun x hx => absurd hx (List.not_mem_nil x))
      (fun x hx => List.mem_range.mp hx)
      (fun x hx => absurd hx (List.not_mem_nil x))

theorem sample_distinct_excluding_spec (g : Rng) (k : Nat) (exclude : List Nat) :
    (sample_distinct_excluding g k exclude).1.Nodup ∧
      ∀ x ∈ (sample_distinct_excluding g k exclude).1, x < N_PRED ∧ x ∉ exclude := by
  rw [sample_distinct_excluding]
  by_cases hk : k = 0
  · rw [if_pos hk]
    exact ⟨List.nodup_nil, fun x hx => absurd hx (List.not_mem_nil x)⟩
  · rw [if_neg hk]
    refine pickLoop_spec (fun x => x < N_PRED ∧ x ∉ exclude) k g _ []
      ((List.nodup_range N_PRED).filter _) List.nodup_nil
      (fun x hx => absurd hx (List.not_mem_nil x)) ?_
      (fun x hx => absurd hx (List.not_mem_nil x))
    intro x hx
    obtain ⟨hr, hc⟩ := List.mem_filter.mp hx
    refine ⟨List.mem_range.mp hr, fun hmem => ?_⟩
    rw [Bool.not_eq_true'] at hc
    simp [hmem] at hc

/-- One iteration of the term loop of `gen_rule`: draw the required and
forbidden counts, sample the index lists, build the two masks with the
or-loops, assemble the `Term`. -/
def gen_term (g : Rng) : Term × Rng :=
  let kreq_g := g.randomRangeIncl REQ_PER_TERM
  let kforb_g := kreq_g.2.randomRangeIncl FORB_PER_TERM
  let req_g := sample_distinct kforb_g.2 kreq_g.1
  let forb_g := sample_distinct_excluding req_g.2 kforb_g.1 req_g.1
  (⟨orBits req_g.1, orBits forb_g.1, req_g.1, forb_g.1⟩, forb_g.2)

/-- The term loop of `gen_rule`, building `n` terms in order. -/
def gen_terms : Nat → Rng → List Term × Rng
  | 0, g => ([], g)
  | n + 1, g =>
    let t_g := gen_term g
    let rest := gen_terms n t_g.2
    (t_g.1 :: rest.1, rest.2)

/-- `gen_rule(rng)`: draw the number of terms, then build them. -/
def gen_rule (g : Rng) : Rule × Rng :=
  let n_g := g.randomRangeIncl TERMS_PER_RULE
  let terms_g := gen_terms n_g.1 n_g.2
  (⟨terms_g.1⟩, terms_g.2)

/-- The loop of `gen_rules`, building `n` rules in order. -/
def gen_rules_aux : Nat → Rng → List Rule × Rng
  | 0, g => ([], g)
  | n + 1, g =>
    let r_g := gen_rule g
    let rest := gen_rules_aux n r_g.2
    (r_g.1 :: rest.1, rest.2)

/-- `gen_rules(rng)`. -/
def gen_rules (g : Rng) : List Rule × Rng := gen_rules_aux N_RULES g

/-- Disjoint index lists induce masks with empty intersection. -/
theorem orBits_and_eq_zero {l₁ l₂ : List Nat} (h : ∀ j ∈ l₂, j ∉ l₁) :
    orBits l₁ &&& orBits l₂ = 0 := by
  apply Nat.eq_of_testBit_eq
  intro j
  rw [Nat.testBit_and, Nat.zero_testBit]
  cases h1 : (orBits l₁).testBit j with
  | false => rw [Bool.false_and]
  | true =>
    rw [Bool.true_and]
    cases h2 : (orBits l₂).testBit j with
    | false => rfl
    | true =>
      exact absurd ((orBits_testBit l₁ j).mp h1) (h j ((orBits_testBit l₂ j).mp h2))

theorem gen_term_invariants (g : Rng) :
    (gen_term g).1.req_idx.Nodup ∧ (gen_term g).1.forb_idx.Nodup ∧
      (∀ i ∈ (gen_term g).1.req_idx, i < N_PRED) ∧
      (∀ i ∈ (gen_term g).1.forb_idx, i < N_PRED) ∧
      (∀ i ∈ (gen_term g).1.forb_idx, i ∉ (gen_term g).1.req_idx) ∧
      (gen_term g).1.req_mask = orBits (gen_term g).1.req_idx ∧
      (gen_term g).1.forb_mask = orBits (gen_term g).1.forb_idx ∧
      (gen_term g).1.req_mask &&& (gen_term g).1.forb_mask = 0 := by
  obtain ⟨hqN, hqP⟩ := sample_distinct_spec
    ((g.randomRangeIncl REQ_PER_TERM).2.randomRangeIncl FORB_PER_TERM).2
    (g.randomRangeIncl REQ_PER_TERM).1
  obtain ⟨hfN, hfP⟩ := sample_distinct_excluding_spec
    (sample_distinct ((g.randomRangeIncl REQ_PER_TERM).2.randomRangeIncl FORB_PER_TERM).2
      (g.randomRangeIncl REQ_PER_TERM).1).2
    ((g.randomRangeIncl REQ_PER_TERM).2.randomRangeIncl FORB_PER_TERM).1
    (sample_distinct ((g.randomRangeIncl REQ_PER_TERM).2.randomRangeIncl FORB_PER_TERM).2
      (g.randomRangeIncl REQ_PER_TERM).1).1
  exact ⟨hqN, hfN, hqP, fun i hi => (hfP i hi).1, fun i hi => (hfP i hi).2, rfl, rfl,
    orBits_and_eq_zero fun j hj => (hfP j hj).2⟩

theorem gen_terms_invariants (n : Nat) (g : Rng) :
    ∀ t ∈ (gen_terms n g).1,
      t.req_idx.Nodup ∧ t.forb_idx.Nodup ∧
      (∀ i ∈ t.req_idx, i < N_PRED) ∧ (∀ i ∈ t.forb_idx, i < N_PRED) ∧
      (∀ i ∈ t.forb_idx, i ∉ t.req_idx) ∧
      t.req_mask = orBits t.req_idx ∧ t.forb_mask = orBits t.forb_idx ∧
      t.req_mask &&& t.forb_mask = 0 := by
  induction n generalizing g with
  | zero => intro t ht; cases ht
  | succ n ih =>
    intro t ht
    rcases List.mem_cons.mp ht with rfl | hrest
    · exact gen_term_invariants g
    · exact ih _ t hrest

/-- **C10** (confirmed).  Every `Term` produced by `gen_rule`, whatever
the generator state, has duplicate-free required and forbidden index
lists, all indices below `N_PRED`, the forbidden list disjoint from the
required list, each mask equal to the OR of `1 <<< i` over its index
list, and hence disjoint masks (`req_mask &&& forb_mask = 0`). -/
theorem gen_rule_invariants (g : Rng) :
    ∀ t ∈ (gen_rule g).1.terms,
      t.req_idx.Nodup ∧ t.forb_idx.Nodup ∧
      (∀ i ∈ t.req_idx, i < N_PRED) ∧ (∀ i ∈ t.forb_idx, i < N_PRED) ∧
      (∀ i ∈ t.forb_idx, i ∉ t.req_idx) ∧
      t.req_mask = orBits t.req_idx ∧ t.forb_mask = orBits t.forb_idx ∧
      t.req_mask &&& t.forb_mask = 0 := by
  intro t ht
  exact gen_terms_invariants (g.randomRangeIncl TERMS_PER_RULE).1
    (g.randomRangeIncl TERMS_PER_RULE).2 t ht

/-- A concrete generator state: the all-zero stream. -/
def rng0 : Rng := ⟨fun _ => 0, 0⟩

/-- Witness for **C10**: the first term generated from the all-zero
stream satisfies the invariants; its required list is duplicate-free. -/
theorem gen_rule_invariants_witness :
    (⟨3221225473, 0, [0, 31, 30], []⟩ : Term) ∈ (gen_rule rng0).1.terms ∧
      ([0, 31, 30] : List Nat).Nodup :=
  ⟨by decide,
    (gen_rule_invariants rng0 ⟨3221225473, 0, [0, 31, 30], []⟩ (by decide)).1⟩

end Bitwise
